import Mathlib

/-!
Verification of the FASTA loader/serializer in `SNAPLib/FASTA.cpp`.

The source works on NUL-terminated byte strings; we model bytes as natural
numbers (ASCII codes, e.g. 62 is the record marker, 124 the pipe, 10 LF,
13 CR) and a line delivered by `reallocatingFgets` as a `List Nat` that does
not contain the byte 0.  All recursion is structural or fueled so that every
definition evaluates by `decide` / `rfl`.
-/

namespace Fasta

deriving instance DecidableEq for Except

/-- Model of C `toupper` in the default locale: bytes 97..122 are mapped to
65..90, everything else is unchanged (this is what the call at FASTA.cpp:200
does to each character of a sequence line). -/
def toupperB (b : Nat) : Nat :=
  if 97 ≤ b ∧ b ≤ 122 then b - 32 else b

/-- The validity table built at FASTA.cpp:50-57: exactly the bytes
`'A' 'T' 'C' 'G' 'N' 'a' 't' 'c' 'g' 'n'` are valid. -/
def isValidGenomeCharacter (b : Nat) : Bool :=
  b = 65 ∨ b = 84 ∨ b = 67 ∨ b = 71 ∨ b = 78 ∨
  b = 97 ∨ b = 116 ∨ b = 99 ∨ b = 103 ∨ b = 110

/-- Truncation of a sequence line at the first newline (FASTA.cpp:188-191:
`strchr(lineBuffer, '\n')` followed by writing a NUL there). -/
def truncLF (l : List Nat) : List Nat := l.takeWhile (fun b => b ≠ 10)

/-- The second per-line loop at FASTA.cpp:203-215, applied after uppercasing:
convert 78 (`N`) to 110 (`n`), then replace invalid characters by 78 (`N`),
issuing a warning for the first invalid character ever seen.  Returns the
rewritten line, the final `warningIssued` flag and the number of warnings
emitted by this line. -/
def normalizePass2 : List Nat → Bool → (List Nat × Bool × Nat)
  | [], w => ([], w, 0)
  | b :: rest, w =>
    let v := if b = 78 then 110 else b
    if isValidGenomeCharacter v then
      let r := normalizePass2 rest w
      (v :: r.1, r.2.1, r.2.2)
    else
      let emit : Nat := if w then 0 else 1
      let r := normalizePass2 rest true
      (78 :: r.1, r.2.1, r.2.2 + emit)

/-- The complete per-character normalization performed on sequence-line bytes
(uppercase, then `N` to `n`, then invalid to `N`); the data component of the
two loops at FASTA.cpp:199-215 equals a map of this function. -/
def normChar (b : Nat) : Nat :=
  let u := toupperB b
  let v := if u = 78 then 110 else u
  if isValidGenomeCharacter v then v else 78

/-- Data produced for one sequence line (uppercase pass followed by the
normalization pass), ignoring the warning bookkeeping. -/
def normalizeLineData (l : List Nat) : List Nat :=
  (normalizePass2 (l.map toupperB) true).1

/-- Model of `strchr`: index of the first occurrence of byte `c` in `l`. -/
def strchrIdx : List Nat → Nat → Option Nat
  | [], _ => none
  | b :: rest, c => if b = c then some 0 else (strchrIdx rest c).map (· + 1)

/-- One `if (NULL != p && p < terminator) terminator = p;` step of the
free-form name scan (FASTA.cpp:130-155). -/
def updateMin (t : Nat) : Option Nat → Nat
  | some p => if p < t then p else t
  | none => t

/-- The free-form contig-name terminator computation at FASTA.cpp:128-155:
start at the end of the line, then lower the terminator to the first
occurrence of each configured terminator character (searched from index 1),
of space and tab when `spaceIsAPieceNameTerminator` is set, and of LF and CR.
The result is an absolute index into the line. -/
def freeFormNameLen (ln : List Nat) (pieceChars : Option (List Nat))
    (spaceTerm : Bool) : Nat :=
  let t0 := ln.length
  let t1 :=
    match pieceChars with
    | none => t0
    | some cs =>
      cs.foldl (fun t c => updateMin t ((strchrIdx (ln.drop 1) c).map (· + 1))) t0
  let t2 :=
    if spaceTerm then
      updateMin (updateMin t1 (strchrIdx ln 32)) (strchrIdx ln 9)
    else t1
  updateMin (updateMin t2 (strchrIdx ln 10)) (strchrIdx ln 13)

/-- The free-form contig name (FASTA.cpp:156-157): the text from index 1 up to
the computed terminator. -/
def freeFormName (ln : List Nat) (pieceChars : Option (List Nat))
    (spaceTerm : Bool) : List Nat :=
  (ln.drop 1).take (freeFormNameLen ln pieceChars spaceTerm - 1)

/-- Fueled model of `strstr(line + i, tag)`: the least `j ≥ i` at which `tag`
occurs in `ln`.  The fuel `ln.length + 1 - i` suffices. -/
def strstrAux (ln tag : List Nat) : Nat → Nat → Option Nat
  | 0, _ => none
  | fuel + 1, i =>
    if i ≤ ln.length then
      if (ln.drop i).take tag.length = tag then some i
      else strstrAux ln tag fuel (i + 1)
    else none

/-- First occurrence of `tag` in `ln` at an index `≥ i`. -/
def strstrFrom (ln tag : List Nat) (i : Nat) : Option Nat :=
  strstrAux ln tag (ln.length + 1 - i) i

/-- The do-while loop of `FindFASTATagValue` (FASTA.cpp:261-266): advance
through the occurrences of `tag` starting at index 1, stopping at the first
occurrence whose preceding character is `>` or `|` or whose following
character is `|` (the loop continues only while all three tests fail). -/
def findAcceptedTag (ln tag : List Nat) : Nat → Nat → Option Nat
  | 0, _ => none
  | fuel + 1, i =>
    match strstrFrom ln tag i with
    | none => none
    | some j =>
      if ln[j - 1]? = some 62 ∨ ln[j - 1]? = some 124 ∨
          ln[j + tag.length]? = some 124 then some j
      else findAcceptedTag ln tag fuel (j + 1)

/-- Result of `FindFASTATagValue`: `notFound` models returning `false`,
`malformed` models the fatal exit at FASTA.cpp:269-272, `found v` models
returning `true` with `*pTagValue/*pValueLength` describing `v`. -/
inductive TagResult where
  | notFound
  | malformed
  | found (value : List Nat)
deriving DecidableEq

/-- Model of `FindFASTATagValue` (FASTA.cpp:257-275).  After the search loop
accepts an occurrence at `j`, the value starts at `j + |tag| + 1` and extends
to the next pipe; a missing closing pipe is the fatal malformed-tag error. -/
def FindFASTATagValue (ln tag : List Nat) : TagResult :=
  match findAcceptedTag ln tag (ln.length + 2) 1 with
  | none => .notFound
  | some j =>
    let vstart := j + tag.length + 1
    match (strchrIdx (ln.drop vstart) 124).map (· + vstart) with
    | none => .malformed
    | some k => .found ((ln.drop vstart).take (k - vstart))

/-- Configuration of one `ReadFASTAGenome` call.  `chrMap = some m` models
`chrMapFilename != NULL` with `m` the alias-to-canonical table that was loaded
from the file (the `map<string,string>` built at FASTA.cpp:62-83); `altMap` is
modelled as NULL throughout, as in every claim. -/
structure LoaderConfig where
  pieceNameTerminatorCharacters : Option (List Nat)
  spaceIsAPieceNameTerminator : Bool
  chromosomePaddingSize : Nat
  chrTag : Option (List Nat)
  chrMap : Option (List (List Nat × List Nat))
deriving DecidableEq

/-- The fatal conditions raised inside the parse loop via `soft_exit`. -/
inductive FastaError where
  | noStartingContig
  | tagNotFound
  | badlyFormattedTag
deriving DecidableEq

/-- Modelled from the spec: one entry of the genome sink's contig table,
`{ name, beginLocation }` (the `Genome` class is outside this repository
slice; §3 of the spec gives its data model). -/
structure Contig where
  name : List Nat
  beginningLocation : Nat
deriving DecidableEq

/-- Modelled from the spec: the external genome sink — an append-only byte
buffer of bases plus an ordered contig table (§3, §6 of the spec). -/
structure Genome where
  bases : List Nat
  contigs : List Contig
deriving DecidableEq

/-- Modelled from the spec: `Genome::addData` appends bytes to the buffer. -/
def Genome.addData (g : Genome) (d : List Nat) : Genome :=
  { g with bases := g.bases ++ d }

/-- Modelled from the spec: `Genome::startContig` opens a new contig whose
begin location is the current buffer length. -/
def Genome.startContig (g : Genome) (nm : List Nat) : Genome :=
  { g with contigs := g.contigs ++ [⟨nm, g.bases.length⟩] }

/-- Modelled from the spec: `Genome::fillInContigLengths` fills per-contig
length fields from consecutive begin locations (§4.5).  No operation modelled
here reads those lengths (the writer recomputes spans from begin locations),
so the contig table of names and begin locations is unchanged. -/
def Genome.fillInContigLengths (g : Genome) : Genome := g

/-- Byte-string comparison used to order contig names (strcmp-style
lexicographic order on the bytes). -/
def nameLtB : List Nat → List Nat → Bool
  | [], [] => false
  | [], _ :: _ => true
  | _ :: _, [] => false
  | a :: as, b :: bs => if a < b then true else if b < a then false else nameLtB as bs

/-- The name order used by `sortContigsByName`: `a` comes no later than `b`. -/
def contigLe (a b : Contig) : Prop := nameLtB b.name a.name = false

instance : DecidableRel contigLe := fun a b => by
  unfold contigLe; infer_instance

/-- Modelled from the spec: `Genome::sortContigsByName` sorts the contig table
by name (§4.5); begin locations travel with their contigs. -/
def Genome.sortContigsByName (g : Genome) : Genome :=
  { g with contigs := List.insertionSort contigLe g.contigs }

/-- The mutable state carried across lines of the parse loop:
the genome under construction, the `inAContig` flag (FASTA.cpp:112), the
`warningIssued` flag (FASTA.cpp:111) and, as observable instrumentation, the
number of invalid-character warnings printed so far. -/
structure LoaderState where
  genome : Genome
  inAContig : Bool
  warningIssued : Bool
  warningsEmitted : Nat
deriving DecidableEq

/-- Contig-name resolution for one header line (FASTA.cpp:127-170): free-form
scan when no tag is configured, otherwise tag extraction followed — only in
that branch — by the optional remap lookup (`chrMap.find` at FASTA.cpp:163-169,
an exact-key lookup). -/
def resolveContigName (cfg : LoaderConfig) (ln : List Nat) :
    Except FastaError (List Nat) :=
  match cfg.chrTag with
  | none =>
    .ok (freeFormName ln cfg.pieceNameTerminatorCharacters
          cfg.spaceIsAPieceNameTerminator)
  | some tag =>
    match FindFASTATagValue ln tag with
    | .notFound => .error .tagNotFound
    | .malformed => .error .badlyFormattedTag
    | .found v =>
      match cfg.chrMap with
      | none => .ok v
      | some m =>
        match m.find? (fun p => decide (p.1 = v)) with
        | some p => .ok p.2
        | none => .ok v

/-- One iteration of the parse loop at FASTA.cpp:114-218.  A header line adds
the padding block, resolves the name and opens the contig; a sequence line
before the first header is the fatal error at FASTA.cpp:179-182; otherwise the
ln is truncated at the newline, uppercased, normalized and appended.  Errors
carry the state at the moment of the `soft_exit`. -/
def processLine (cfg : LoaderConfig) (st : LoaderState) (ln : List Nat) :
    Except (FastaError × LoaderState) LoaderState :=
  if ln.head? = some 62 then
    let g1 := st.genome.addData (List.replicate cfg.chromosomePaddingSize 110)
    match resolveContigName cfg ln with
    | .error e => .error (e, { st with genome := g1, inAContig := true })
    | .ok nm => .ok { st with genome := g1.startContig nm, inAContig := true }
  else
    if st.inAContig then
      let r := normalizePass2 ((truncLF ln).map toupperB) st.warningIssued
      .ok { st with genome := st.genome.addData r.1,
                    warningIssued := r.2.1,
                    warningsEmitted := st.warningsEmitted + r.2.2 }
    else .error (.noStartingContig, st)

/-- The parse loop over all lines of the file. -/
def runLoader (cfg : LoaderConfig) :
    LoaderState → List (List Nat) → Except (FastaError × LoaderState) LoaderState
  | st, [] => .ok st
  | st, l :: rest =>
    match processLine cfg st l with
    | .error e => .error e
    | .ok st2 => runLoader cfg st2 rest

/-- The state at FASTA.cpp:111-112, before the first line is read. -/
def initState : LoaderState := ⟨⟨[], []⟩, false, false, 0⟩

/-- Model of `ReadFASTAGenome` (FASTA.cpp:34-234) on the byte lines of the
FASTA file: run the parse loop from the initial state, then append the final
padding block, fill in contig lengths and sort the contig table by name.
A fatal `soft_exit` is modelled as an error carrying the state at exit. -/
def ReadFASTAGenome (cfg : LoaderConfig) (lines : List (List Nat)) :
    Except (FastaError × LoaderState) Genome :=
  match runLoader cfg initState lines with
  | .error e => .error e
  | .ok st =>
    .ok (((st.genome.addData
            (List.replicate cfg.chromosomePaddingSize 110)).fillInContigLengths).sortContigsByName)

/-- The counting pass at FASTA.cpp:96-100: the number of lines whose first
character is the record marker. -/
def countHeaders (lines : List (List Nat)) : Nat :=
  lines.countP (fun l => l.head? = some 62)

/-- The file size returned by `QueryFileSize` (FASTA.cpp:49): the number of
bytes of the file, i.e. the total length of its fgets lines. -/
def fileSize (lines : List (List Nat)) : Nat :=
  (lines.map List.length).sum

/-- Number of bytes that reached the genome sink, for a completed or aborted
load (an aborted load stops appending at the `soft_exit`). -/
def loadTotal (r : Except (FastaError × LoaderState) Genome) : Nat :=
  match r with
  | .ok g => g.bases.length
  | .error e => e.2.genome.bases.length

/-- The writer loop of `AppendFASTAGenome` (FASTA.cpp:243-253): each contig's
span runs from its begin location to the next contig's begin location, or to
the total base count for the last contig; the emitted record is the contig
name paired with the span bytes. -/
def writerRecordsAux (bases : List Nat) : List Contig → List (List Nat × List Nat)
  | [] => []
  | c :: rest =>
    let e :=
      match rest with
      | [] => bases.length
      | c2 :: _ => c2.beginningLocation
    (c.name, (bases.drop c.beginningLocation).take (e - c.beginningLocation)) ::
      writerRecordsAux bases rest

/-- The per-contig records `AppendFASTAGenome` writes, in table order. -/
def writerRecords (g : Genome) : List (List Nat × List Nat) :=
  writerRecordsAux g.bases g.contigs

/-- Well-formedness of one fgets line: nonempty, free of NUL bytes, every
byte below 256, and a newline only as the final byte. -/
def WFLine (l : List Nat) : Prop :=
  l ≠ [] ∧ (∀ b ∈ l, 0 < b ∧ b < 256) ∧ 10 ∉ l.dropLast

/-- Well-formedness of a whole file, as the list of its fgets lines. -/
def WFLines (lines : List (List Nat)) : Prop := ∀ l ∈ lines, WFLine l

instance (l : List Nat) : Decidable (WFLine l) := by
  unfold WFLine; infer_instance

instance (lines : List (List Nat)) : Decidable (WFLines lines) := by
  unfold WFLines; infer_instance

/-- Character count of a sequence line with the trailing newline (and only
that byte) excluded — the amended reading of `terminators stripped`. -/
def seqLineLen (l : List Nat) : Nat :=
  if l.getLast? = some 10 then l.length - 1 else l.length

/-- Character count of a sequence line with the line terminator excluded in
the spec's sense: a trailing LF and a carriage return before it are both
dropped. -/
def seqLineLenSpec (l : List Nat) : Nat :=
  let a := if l.getLast? = some 10 then l.dropLast else l
  if a.getLast? = some 13 then a.length - 1 else a.length

/-- Sum of the character counts of the non-header lines, under a given
per-line counting function. -/
def seqLenSum (f : List Nat → Nat) (lines : List (List Nat)) : Nat :=
  (lines.map (fun l => if l.head? = some 62 then 0 else f l)).sum

/-- The total the claim predicts for a load: the sequence-line character sum
plus one padding block per contig plus one more. -/
def claimTotal (f : List Nat → Nat) (cfg : LoaderConfig)
    (lines : List (List Nat)) : Nat :=
  seqLenSum f lines + cfg.chromosomePaddingSize * (countHeaders lines + 1)

/-- Occurrence of `tag` at index `j` of `ln`. -/
def occursAt (ln tag : List Nat) (j : Nat) : Prop :=
  (ln.drop j).take tag.length = tag

/-- The delimiter test of the search loop: the character before the
occurrence is `>` or `|`, or the character after it is `|`. -/
def delimOk (ln tag : List Nat) (j : Nat) : Prop :=
  ln[j - 1]? = some 62 ∨ ln[j - 1]? = some 124 ∨ ln[j + tag.length]? = some 124

/-- The claim's acceptance condition for a tag occurrence: delimited on the
left by `>` or `|` AND immediately followed on the right by `|`. -/
def claimDelim (ln tag : List Nat) (j : Nat) : Prop :=
  (ln[j - 1]? = some 62 ∨ ln[j - 1]? = some 124) ∧ ln[j + tag.length]? = some 124

instance (ln tag : List Nat) (j : Nat) : Decidable (occursAt ln tag j) := by
  unfold occursAt; infer_instance

instance (ln tag : List Nat) (j : Nat) : Decidable (delimOk ln tag j) := by
  unfold delimOk; infer_instance

instance (ln tag : List Nat) (j : Nat) : Decidable (claimDelim ln tag j) := by
  unfold claimDelim; infer_instance

/-- Decidable form of `some occurrence of the tag satisfies the claim's
conjunctive delimiter test`. -/
def claimTagFound (ln tag : List Nat) : Bool :=
  (List.range (ln.length + 1)).any (fun j =>
    decide (1 ≤ j) && decide (occursAt ln tag j) && decide (claimDelim ln tag j))

/-- Expected base buffer produced by a record list: one padding block before
each contig's sequence (the final padding block is appended separately). -/
def layoutBases (p : Nat) : List (List Nat × List Nat) → List Nat
  | [] => []
  | r :: rest => List.replicate p 110 ++ r.2 ++ layoutBases p rest

/-- Expected contig table produced by a record list, with `pos` the number of
bases already in the buffer: each contig begins right after its padding. -/
def layoutContigs (p : Nat) (pos : Nat) : List (List Nat × List Nat) → List Contig
  | [] => []
  | r :: rest => ⟨r.1, pos + p⟩ :: layoutContigs p (pos + p + r.2.length) rest

/-- Append sequence bytes to the last (open) record. -/
def appendToLast (x : List Nat) : List (List Nat × List Nat) → List (List Nat × List Nat)
  | [] => []
  | [r] => [(r.1, r.2 ++ x)]
  | r :: r2 :: rest => r :: appendToLast x (r2 :: rest)

/-- Reference parse of the input into records: a header line opens a record
named by `resolveContigName`; a sequence line appends its truncated,
normalized bytes to the open record, and is an error when no record is
open.  Different line wrappings of the same sequence produce the same
records. -/
def inputRecordsAux (cfg : LoaderConfig) (acc : List (List Nat × List Nat)) :
    List (List Nat) → Except FastaError (List (List Nat × List Nat))
  | [] => .ok acc
  | l :: rest =>
    if l.head? = some 62 then
      match resolveContigName cfg l with
      | .error e => .error e
      | .ok nm => inputRecordsAux cfg (acc ++ [(nm, [])]) rest
    else
      if acc.isEmpty then .error .noStartingContig
      else inputRecordsAux cfg (appendToLast (normalizeLineData (truncLF l)) acc) rest

/-- Records of the input file: resolved contig names paired with their
normalized sequences. -/
def inputRecords (cfg : LoaderConfig) (lines : List (List Nat)) :
    Except FastaError (List (List Nat × List Nat)) :=
  inputRecordsAux cfg [] lines

/-- Bytes one line contributes to the genome buffer: a padding block for a
header line, the truncated and normalized content for a sequence line. -/
def lineBytes (cfg : LoaderConfig) (l : List Nat) : List Nat :=
  if l.head? = some 62 then List.replicate cfg.chromosomePaddingSize 110
  else (truncLF l).map normChar

/-- Bytes the parse loop appends over a whole file (without the final
padding block). -/
def bodyBytes (cfg : LoaderConfig) (lines : List (List Nat)) : List Nat :=
  (lines.map (lineBytes cfg)).flatten

/-- The base buffer a successful load is expected to produce, warnings aside:
padding before each contig and after the last one, sequence lines truncated
at the newline and normalized character by character. -/
def cleanBases (cfg : LoaderConfig) (lines : List (List Nat)) : List Nat :=
  bodyBytes cfg lines ++ List.replicate cfg.chromosomePaddingSize 110

/-- A byte of a sequence line that will be reported invalid: after the
uppercase pass and the `N` to `n` conversion it is outside the valid set. -/
def badByte (b : Nat) : Bool :=
  !isValidGenomeCharacter (if toupperB b = 78 then 110 else toupperB b)

/-- Some sequence line of the input contains an invalid character within its
truncated content. -/
def anyInvalid (lines : List (List Nat)) : Bool :=
  lines.any (fun l => !(l.head? == some 62) && (truncLF l).any badByte)

/-- The terminator set of the free-form naming mode, as the claim describes
it: any configured terminator character, space and tab when
`spaceIsAPieceNameTerminator` is set, and the line-terminator bytes. -/
def isFreeTerm (pieceChars : Option (List Nat)) (spaceTerm : Bool) (b : Nat) : Bool :=
  (match pieceChars with
   | some cs => cs.contains b
   | none => false) ||
  (spaceTerm && (b == 32 || b == 9)) || b == 10 || b == 13

/-- The occurrence the search loop of `FindFASTATagValue` settles on: the
leftmost index `j ≥ 1` carrying the tag and passing the disjunctive delimiter
test. -/
def firstAccepted (ln tag : List Nat) (j : Nat) : Prop :=
  1 ≤ j ∧ j ≤ ln.length ∧ occursAt ln tag j ∧ delimOk ln tag j ∧
  ∀ k, 1 ≤ k → k < j → ¬(occursAt ln tag k ∧ delimOk ln tag k)

/-- The closing pipe of a tag value that starts at index `s`: the leftmost
pipe at an index `≥ s`. -/
def firstPipeFrom (ln : List Nat) (s k : Nat) : Prop :=
  s ≤ k ∧ ln[k]? = some 124 ∧ ∀ m, s ≤ m → m < k → ln[m]? ≠ some 124

/-- Model of `AppendFASTAGenome` (FASTA.cpp:239-255): for each contig emit
`>` + prefix + name, a newline, the span bytes as one unwrapped line, and a
newline (the optional header name preamble parameter is `pre` here). -/
def AppendFASTAGenome (g : Genome) (pre : List Nat) : List Nat :=
  (writerRecords g).foldr
    (fun r out => 62 :: (pre ++ r.1 ++ [10] ++ r.2 ++ [10]) ++ out) []

/-! ### Helper lemmas -/

/-- The data component of the normalization pass does not depend on the
warning flag: it is a per-character map. -/
theorem normalizePass2_data (l : List Nat) :
    ∀ w, (normalizePass2 l w).1 =
      l.map (fun b =>
        let v := if b = 78 then 110 else b
        if isValidGenomeCharacter v then v else 78) := by
  induction l with
  | nil => intro w; rfl
  | cons b rest ih =>
    intro w
    simp only [normalizePass2, List.map_cons]
    split <;> split <;> simp [ih]

theorem normalizeLineData_eq_map (l : List Nat) :
    normalizeLineData l = l.map normChar := by
  unfold normalizeLineData
  rw [normalizePass2_data, List.map_map]
  rfl

/-- The uppercase map never produces a lowercase letter. -/
theorem toupperB_not_low (b : Nat) : ¬(97 ≤ toupperB b ∧ toupperB b ≤ 122) := by
  unfold toupperB; split <;> omega

/-- Every character the normalization emits is one of `A C G T n N`. -/
theorem normChar_mem (b : Nat) :
    normChar b = 65 ∨ normChar b = 67 ∨ normChar b = 71 ∨ normChar b = 84 ∨
    normChar b = 110 ∨ normChar b = 78 := by
  have hr := toupperB_not_low b
  simp only [normChar]
  by_cases h78 : toupperB b = 78
  · simp [h78, isValidGenomeCharacter]
  · rw [if_neg h78]
    by_cases hval : isValidGenomeCharacter (toupperB b) = true
    · rw [if_pos hval]
      simp only [isValidGenomeCharacter, decide_eq_true_eq] at hval
      omega
    · rw [if_neg hval]
      simp

/-! ### Claim C5: idempotence of normalization -/

/-- Claim C5 is false as stated: the normalization of the line `"Z"` is
`"N"`, and normalizing that already-normalized sequence again yields `"n"`,
not `"N"` — a second application is not the identity on the image of the
first. -/
theorem c5_cex :
    normalizeLineData (normalizeLineData [90]) ≠ normalizeLineData [90] := by
  decide

/-- Amended claim C5: the per-line normalization is the identity on every
sequence over the valid set `{A, T, C, G, n}`; an `N` produced for an invalid
input character is moved to `n` by a second application, so idempotence holds
exactly on normalized sequences that contain no `N`. -/
theorem c5_norm_identity (l : List Nat)
    (h : ∀ b ∈ l, b = 65 ∨ b = 84 ∨ b = 67 ∨ b = 71 ∨ b = 110) :
    normalizeLineData l = l := by
  rw [normalizeLineData_eq_map]
  conv_rhs => rw [← List.map_id l]
  apply List.map_congr_left
  intro b hb
  rcases h b hb with h | h | h | h | h <;> subst h <;> decide

/-- Witness for the amended claim C5 at the sequence `"ATn"`. -/
theorem c5_witness :
    (∀ b ∈ [65, 84, 110], b = 65 ∨ b = 84 ∨ b = 67 ∨ b = 71 ∨ b = 110) ∧
    normalizeLineData [65, 84, 110] = [65, 84, 110] :=
  ⟨by decide, c5_norm_identity [65, 84, 110] (by decide)⟩

/-! ### Claim C7: sequence data before the first header is fatal -/

/-- Claim C7: when the first line of the file is not a header line, the load
stops with the fatal no-starting-contig error, in the initial state — in
particular nothing has been appended to the genome sink. -/
theorem c7_no_header_fatal (cfg : LoaderConfig) (l : List Nat)
    (rest : List (List Nat)) (h : l.head? ≠ some 62) :
    ReadFASTAGenome cfg (l :: rest) = .error (.noStartingContig, initState) ∧
    initState.genome.bases = [] := by
  refine ⟨?_, rfl⟩
  simp [ReadFASTAGenome, runLoader, processLine, h, initState]

/-- Witness for claim C7: the one-line file `"A\n"`. -/
theorem c7_witness :
    ([65, 10] : List Nat).head? ≠ some 62 ∧
    ReadFASTAGenome ⟨none, false, 1, none, none⟩ [[65, 10]] =
      .error (.noStartingContig, initState) :=
  ⟨by decide,
   (c7_no_header_fatal ⟨none, false, 1, none, none⟩ [65, 10] [] (by decide)).1⟩

/-! ### Claim C3: the remap table -/

/-- Claim C3 is false as stated: in free-form naming mode (no tag configured)
a loaded remap table mapping `"chrI"` to `"chr1"` is never consulted — the
header `">chrI"` resolves to the raw name `"chrI"`, not to `"chr1"`. -/
theorem c3_cex :
    resolveContigName
        ⟨none, false, 1, none, some [([99, 104, 114, 73], [99, 104, 114, 49])]⟩
        [62, 99, 104, 114, 73, 10] = .ok [99, 104, 114, 73] ∧
    ([99, 104, 114, 73] : List Nat) ≠ [99, 104, 114, 49] := by
  constructor
  · rfl
  · decide

/-- Amended claim C3: the remap lookup happens only in tag-based naming mode.
There, with a remap table loaded, the extracted raw name is looked up by
exact key; a hit stores the canonical name and a miss stores the raw name
unchanged.  In free-form mode the raw name is stored with no remap lookup at
all. -/
theorem c3_remap_tag_only (cfg : LoaderConfig) (ln : List Nat) :
    (∀ tag m v, cfg.chrTag = some tag → cfg.chrMap = some m →
      FindFASTATagValue ln tag = .found v →
      (∀ q, m.find? (fun p => decide (p.1 = v)) = some q →
        resolveContigName cfg ln = .ok q.2) ∧
      (m.find? (fun p => decide (p.1 = v)) = none →
        resolveContigName cfg ln = .ok v)) ∧
    (cfg.chrTag = none →
      resolveContigName cfg ln =
        .ok (freeFormName ln cfg.pieceNameTerminatorCharacters
              cfg.spaceIsAPieceNameTerminator)) := by
  constructor
  · intro tag m v htag hmap hfind
    constructor
    · intro q hq
      simp [resolveContigName, htag, hmap, hfind, hq]
    · intro hq
      simp [resolveContigName, htag, hmap, hfind, hq]
  · intro htag
    simp [resolveContigName, htag]

/-- Witness for the amended claim C3: tag `"id"`, header `">id|chrI|"`, remap
table sending `"chrI"` to `"chr1"`; the stored name is `"chr1"`. -/
theorem c3_witness :
    resolveContigName
        ⟨none, false, 1, some [105, 100], some [([99, 104, 114, 73], [99, 104, 114, 49])]⟩
        [62, 105, 100, 124, 99, 104, 114, 73, 124, 10] = .ok [99, 104, 114, 49] :=
  ((c3_remap_tag_only
      ⟨none, false, 1, some [105, 100], some [([99, 104, 114, 73], [99, 104, 114, 49])]⟩
      [62, 105, 100, 124, 99, 104, 114, 73, 124, 10]).1
    [105, 100] [([99, 104, 114, 73], [99, 104, 114, 49])] [99, 104, 114, 73]
    rfl rfl (by decide)).1
    ([99, 104, 114, 73], [99, 104, 114, 49]) (by decide)

/-! ### Loader invariants -/

theorem normalizePass2_data_map (l : List Nat) (w : Bool) :
    (normalizePass2 (l.map toupperB) w).1 = l.map normChar := by
  rw [normalizePass2_data, List.map_map]; rfl

/-- The bases appended by one successfully processed line. -/
theorem processLine_ok_bases (cfg : LoaderConfig) (st st1 : LoaderState)
    (l : List Nat) (hp : processLine cfg st l = .ok st1) :
    st1.genome.bases = st.genome.bases ++ lineBytes cfg l := by
  simp only [processLine] at hp
  by_cases h62 : l.head? = some 62
  · rw [if_pos h62] at hp
    cases hr : resolveContigName cfg l with
    | error e => rw [hr] at hp; cases hp
    | ok nm =>
      rw [hr] at hp
      cases hp
      simp [Genome.startContig, Genome.addData, lineBytes, h62]
  · rw [if_neg h62] at hp
    by_cases hin : st.inAContig
    · rw [if_pos hin] at hp
      cases hp
      simp [Genome.addData, lineBytes, h62, normalizePass2_data_map]
    · rw [if_neg hin] at hp; cases hp

/-- The state carried out of a fatal line has at most one padding block more
than the state carried in. -/
theorem processLine_err_bases (cfg : LoaderConfig) (st : LoaderState)
    (l : List Nat) (e : FastaError × LoaderState)
    (hp : processLine cfg st l = .error e) :
    e.2.genome.bases.length ≤ st.genome.bases.length + (lineBytes cfg l).length := by
  simp only [processLine] at hp
  by_cases h62 : l.head? = some 62
  · rw [if_pos h62] at hp
    cases hr : resolveContigName cfg l with
    | error e2 =>
      rw [hr] at hp
      cases hp
      simp [Genome.addData, lineBytes, h62]
    | ok nm => rw [hr] at hp; cases hp
  · rw [if_neg h62] at hp
    by_cases hin : st.inAContig
    · rw [if_pos hin] at hp; cases hp
    · rw [if_neg hin] at hp
      cases hp
      simp

/-- The bytes a successful run of the parse loop appends. -/
theorem runLoader_ok_bases (cfg : LoaderConfig) :
    ∀ lines st st2, runLoader cfg st lines = .ok st2 →
      st2.genome.bases = st.genome.bases ++ bodyBytes cfg lines := by
  intro lines
  induction lines with
  | nil =>
    intro st st2 h
    simp only [runLoader] at h
    cases h
    simp [bodyBytes]
  | cons l rest ih =>
    intro st st2 h
    simp only [runLoader] at h
    cases hp : processLine cfg st l with
    | error e => rw [hp] at h; cases h
    | ok st1 =>
      rw [hp] at h
      rw [ih st1 st2 h, processLine_ok_bases cfg st st1 l hp]
      simp [bodyBytes]

/-- Whether the run completes or aborts, the bytes appended are bounded by
the per-line contributions. -/
theorem runLoader_bases_le (cfg : LoaderConfig) :
    ∀ lines st,
      (match runLoader cfg st lines with
       | .ok st2 => st2.genome.bases.length
       | .error e => e.2.genome.bases.length) ≤
        st.genome.bases.length + (bodyBytes cfg lines).length := by
  intro lines
  induction lines with
  | nil => intro st; simp [runLoader, bodyBytes]
  | cons l rest ih =>
    intro st
    simp only [runLoader]
    cases hp : processLine cfg st l with
    | error e =>
      have := processLine_err_bases cfg st l e hp
      simp only [bodyBytes, List.map_cons, List.flatten_cons, List.length_append]
      omega
    | ok st1 =>
      have h1 := processLine_ok_bases cfg st st1 l hp
      have h2 := ih st1
      have h3 : st1.genome.bases.length =
          st.genome.bases.length + (lineBytes cfg l).length := by
        rw [h1, List.length_append]
      simp only [bodyBytes, List.map_cons, List.flatten_cons, List.length_append]
      simp only [bodyBytes] at h2
      omega

/-- Bases of a completed load are the clean build: padding blocks around
normalized sequence lines. -/
theorem ReadFASTAGenome_ok_bases (cfg : LoaderConfig) (lines : List (List Nat))
    (g : Genome) (h : ReadFASTAGenome cfg lines = .ok g) :
    g.bases = cleanBases cfg lines := by
  unfold ReadFASTAGenome at h
  cases hr : runLoader cfg initState lines with
  | error e => rw [hr] at h; cases h
  | ok st =>
    rw [hr] at h
    cases h
    have hb := runLoader_ok_bases cfg lines initState st hr
    simp [Genome.sortContigsByName, Genome.fillInContigLengths, Genome.addData,
      cleanBases, hb, initState]

/-! ### Claim C10: alphabet of the genome buffer -/

/-- Claim C10: every byte a completed load has written into the genome base
buffer is one of `A C G T n N` — each normalized sequence byte lies in the
set and every padding byte is `n`. -/
theorem c10_alphabet (cfg : LoaderConfig) (lines : List (List Nat)) (g : Genome)
    (h : ReadFASTAGenome cfg lines = .ok g) :
    ∀ b ∈ g.bases, b = 65 ∨ b = 67 ∨ b = 71 ∨ b = 84 ∨ b = 110 ∨ b = 78 := by
  rw [ReadFASTAGenome_ok_bases cfg lines g h]
  intro b hb
  rw [cleanBases, List.mem_append] at hb
  rcases hb with hb | hb
  · rw [bodyBytes, List.mem_flatten] at hb
    obtain ⟨part, hpart, hbp⟩ := hb
    rw [List.mem_map] at hpart
    obtain ⟨l, _, rfl⟩ := hpart
    rw [lineBytes] at hbp
    split at hbp
    · have := List.eq_of_mem_replicate hbp
      omega
    · rw [List.mem_map] at hbp
      obtain ⟨c, _, rfl⟩ := hbp
      exact normChar_mem c
  · have := List.eq_of_mem_replicate hb
    omega

/-- Witness for claim C10: the two-line file `">a"`, `"A"` with padding 1. -/
theorem c10_witness :
    ReadFASTAGenome ⟨none, false, 1, none, none⟩ [[62, 97, 10], [65, 10]] =
      .ok ⟨[110, 65, 110], [⟨[97], 1⟩]⟩ ∧
    ∀ b ∈ (Genome.mk [110, 65, 110] [⟨[97], 1⟩]).bases,
      b = 65 ∨ b = 67 ∨ b = 71 ∨ b = 84 ∨ b = 110 ∨ b = 78 :=
  ⟨by decide,
   c10_alphabet ⟨none, false, 1, none, none⟩ [[62, 97, 10], [65, 10]] _ (by decide)⟩

/-! ### Claim C8: one warning per load, every invalid byte corrected -/

/-- Warning bookkeeping of the normalization pass: the flag is raised exactly
when the line has an invalid character, and a warning is emitted only when
the flag was still clear. -/
theorem normalizePass2_warn (l : List Nat) :
    ∀ w, (normalizePass2 l w).2.1 =
        (w || l.any (fun b => !isValidGenomeCharacter (if b = 78 then 110 else b))) ∧
      (normalizePass2 l w).2.2 =
        (if w then 0 else
          if l.any (fun b => !isValidGenomeCharacter (if b = 78 then 110 else b))
          then 1 else 0) := by
  induction l with
  | nil => intro w; cases w <;> simp [normalizePass2]
  | cons b rest ih =>
    intro w
    simp only [normalizePass2, List.any_cons]
    by_cases hv : isValidGenomeCharacter (if b = 78 then 110 else b) = true
    · rw [if_pos hv]
      constructor
      · rw [(ih w).1]; simp [hv]
      · rw [(ih w).2]; simp [hv]
    · rw [if_neg hv]
      constructor
      · rw [(ih true).1]
        simp [Bool.eq_false_iff.mpr hv]
      · rw [(ih true).2]
        cases w <;> simp [Bool.eq_false_iff.mpr hv]

/-- Invalid characters of a sequence line, seen through the uppercase pass,
are exactly its bad bytes. -/
theorem any_badByte (l : List Nat) :
    (l.map toupperB).any (fun b => !isValidGenomeCharacter (if b = 78 then 110 else b)) =
      l.any badByte := by
  rw [List.any_map]; rfl

/-- Warning bookkeeping over a successful run of the parse loop. -/
theorem runLoader_warn (cfg : LoaderConfig) :
    ∀ lines st st2, runLoader cfg st lines = .ok st2 →
      st2.warningIssued = (st.warningIssued || anyInvalid lines) ∧
      st2.warningsEmitted = st.warningsEmitted +
        (if st.warningIssued then 0 else if anyInvalid lines then 1 else 0) := by
  intro lines
  induction lines with
  | nil =>
    intro st st2 h
    simp only [runLoader] at h
    cases h
    cases hst : st.warningIssued <;> simp [anyInvalid, hst]
  | cons l rest ih =>
    intro st st2 h
    simp only [runLoader] at h
    cases hp : processLine cfg st l with
    | error e => rw [hp] at h; cases h
    | ok st1 =>
      rw [hp] at h
      have hrest := ih st1 st2 h
      have hline : st1.warningIssued =
          (st.warningIssued ||
            (!(l.head? == some 62) && (truncLF l).any badByte)) ∧
          st1.warningsEmitted = st.warningsEmitted +
            (if st.warningIssued then 0 else
              if !(l.head? == some 62) && (truncLF l).any badByte then 1 else 0) := by
        simp only [processLine] at hp
        by_cases h62 : l.head? = some 62
        · rw [if_pos h62] at hp
          cases hr : resolveContigName cfg l with
          | error e2 => rw [hr] at hp; cases hp
          | ok nm =>
            rw [hr] at hp
            cases hp
            simp [h62]
        · rw [if_neg h62] at hp
          by_cases hin : st.inAContig
          · rw [if_pos hin] at hp
            cases hp
            have h1 := (normalizePass2_warn ((truncLF l).map toupperB) st.warningIssued).1
            have h2 := (normalizePass2_warn ((truncLF l).map toupperB) st.warningIssued).2
            rw [any_badByte] at h1 h2
            have hne : (!(l.head? == some 62) : Bool) = true := by simp [h62]
            refine ⟨?_, ?_⟩
            · rw [h1, hne]; simp
            · rw [h2, hne]; simp
          · rw [if_neg hin] at hp; cases hp
      rw [hrest.1, hrest.2, hline.1, hline.2]
      have ha : anyInvalid (l :: rest) =
          ((!(l.head? == some 62) && (truncLF l).any badByte) || anyInvalid rest) := by
        simp [anyInvalid]
      rw [ha]
      cases hw : st.warningIssued <;>
        cases hl : (!(l.head? == some 62) && (truncLF l).any badByte) <;>
        cases hrw : anyInvalid rest <;> simp_all

/-- Claim C8: over one whole load the first invalid sequence character emits
exactly one warning, later invalid characters emit none, and every invalid
character — warned about or not — is replaced by `N` in the appended data
(the appended bytes are the pure per-character normalization, independent of
the warning state). -/
theorem c8_warning_once (cfg : LoaderConfig) (lines : List (List Nat))
    (st : LoaderState) (h : runLoader cfg initState lines = .ok st) :
    st.warningsEmitted = (if anyInvalid lines then 1 else 0) ∧
    st.genome.bases = bodyBytes cfg lines := by
  have hw := runLoader_warn cfg lines initState st h
  have hb := runLoader_ok_bases cfg lines initState st h
  refine ⟨?_, by simpa [initState] using hb⟩
  rw [hw.2]
  simp [initState]

/-- Witness for claim C8: the file `">a"`, `"Z"`, `"ZZ"` with padding 1 —
three invalid characters across two lines, one warning, all corrected. -/
theorem c8_witness :
    runLoader ⟨none, false, 1, none, none⟩ initState
        [[62, 97, 10], [90, 10], [90, 90, 10]] =
      .ok ⟨⟨[110, 78, 78, 78], [⟨[97], 1⟩]⟩, true, true, 1⟩ ∧
    (LoaderState.mk ⟨[110, 78, 78, 78], [⟨[97], 1⟩]⟩ true true 1).warningsEmitted =
      (if anyInvalid [[62, 97, 10], [90, 10], [90, 90, 10]] then 1 else 0) :=
  ⟨by decide,
   (c8_warning_once ⟨none, false, 1, none, none⟩
      [[62, 97, 10], [90, 10], [90, 90, 10]] _ (by decide)).1⟩

/-! ### Claims C1 and C9: appended totals and the capacity bound -/

theorem truncLF_length_le (l : List Nat) : (truncLF l).length ≤ l.length :=
  (List.takeWhile_sublist _).length_le

theorem takeWhile_all_append (p : Nat → Bool) (L M : List Nat)
    (h : ∀ a ∈ L, p a = true) : (L ++ M).takeWhile p = L ++ M.takeWhile p := by
  induction L with
  | nil => simp
  | cons a L ih =>
    simp only [List.cons_append, List.takeWhile_cons]
    rw [h a (by simp)]
    simp only [if_true]
    rw [ih (fun a ha => h a (by simp [ha]))]

/-- On an fgets line (newline only at the end) truncation at the newline
computes exactly the line length with the trailing newline excluded. -/
theorem truncLF_len_wf (l : List Nat) (h10 : 10 ∉ l.dropLast) :
    (truncLF l).length = seqLineLen l := by
  rcases List.eq_nil_or_concat l with rfl | ⟨L, b, rfl⟩
  · rfl
  · rw [List.concat_eq_append] at h10 ⊢
    rw [List.dropLast_concat] at h10
    have hall : ∀ a ∈ L, (fun x => decide (x ≠ 10)) a = true := by
      intro a ha
      simp only [decide_eq_true_eq]
      intro he
      exact h10 (he ▸ ha)
    by_cases hb : b = 10
    · subst hb
      rw [truncLF, takeWhile_all_append _ _ _ hall]
      simp [seqLineLen, List.getLast?_concat]
    · rw [truncLF, takeWhile_all_append _ _ _ hall]
      simp [seqLineLen, List.getLast?_concat, hb, List.takeWhile_cons]

/-- Length accounting for the bytes of one whole parse pass. -/
theorem bodyBytes_length (cfg : LoaderConfig) (lines : List (List Nat)) :
    (bodyBytes cfg lines).length =
      seqLenSum (fun l => (truncLF l).length) lines +
        cfg.chromosomePaddingSize * countHeaders lines := by
  induction lines with
  | nil => simp [bodyBytes, seqLenSum, countHeaders]
  | cons l rest ih =>
    simp only [bodyBytes, List.map_cons, List.flatten_cons, List.length_append]
    simp only [bodyBytes] at ih
    rw [ih]
    simp only [seqLenSum, countHeaders, List.map_cons, List.sum_cons, List.countP_cons]
    simp only [seqLenSum, countHeaders] at *
    by_cases h62 : l.head? = some 62
    · simp only [lineBytes, if_pos h62, List.length_replicate,
        decide_eq_true_eq, if_pos h62]
      ring
    · simp only [lineBytes, if_neg h62, List.length_map]
      have : (decide (l.head? = some 62)) = false := by simp [h62]
      rw [this]
      simp
      ring

/-- Claim C1, amended: for a load that completes, the number of bytes in the
genome buffer is the sum of the sequence-line lengths with the trailing
newline excluded — a carriage return before the newline counts as a sequence
character (it is normalized to `N`) — plus the padding size times the number
of contigs plus one. -/
theorem c1_total (cfg : LoaderConfig) (lines : List (List Nat)) (g : Genome)
    (hok : ReadFASTAGenome cfg lines = .ok g) (hwf : WFLines lines) :
    g.bases.length = claimTotal seqLineLen cfg lines := by
  rw [ReadFASTAGenome_ok_bases cfg lines g hok]
  rw [cleanBases, List.length_append, List.length_replicate, bodyBytes_length]
  have hsum : seqLenSum (fun l => (truncLF l).length) lines =
      seqLenSum seqLineLen lines := by
    unfold seqLenSum
    congr 1
    apply List.map_congr_left
    intro l hl
    by_cases h62 : l.head? = some 62
    · simp [h62]
    · simp only [if_neg h62]
      exact truncLF_len_wf l (hwf l hl).2.2
  rw [hsum, claimTotal]
  ring

/-- Claim C1 is false as stated: for the valid CRLF file `">a\r\n"`,
`"A\r\n"` with padding 1 the loader strips only the newline, normalizes the
carriage return to `N` and appends it, so it appends 4 bytes while the
claimed formula (line terminators excluded) yields 3. -/
theorem c1_cex :
    (([[62, 97, 13, 10], [65, 13, 10]] : List (List Nat)).head?.map List.head?) =
      some (some 62) ∧
    WFLines [[62, 97, 13, 10], [65, 13, 10]] ∧
    loadTotal (ReadFASTAGenome ⟨none, false, 1, none, none⟩
      [[62, 97, 13, 10], [65, 13, 10]]) = 4 ∧
    claimTotal seqLineLenSpec ⟨none, false, 1, none, none⟩
      [[62, 97, 13, 10], [65, 13, 10]] = 3 := by
  refine ⟨rfl, by decide, by decide, by decide⟩

/-- Witness for the amended claim C1 at the file `">a"`, `"A"`, padding 1. -/
theorem c1_witness :
    (Genome.mk [110, 65, 110] [⟨[97], 1⟩]).bases.length =
      claimTotal seqLineLen ⟨none, false, 1, none, none⟩ [[62, 97, 10], [65, 10]] :=
  c1_total ⟨none, false, 1, none, none⟩ [[62, 97, 10], [65, 10]] _ (by decide)
    (by decide)

/-- Per-line byte bound: a line contributes at most its own length, plus a
padding block when it is a header line. -/
theorem lineBytes_length_le (cfg : LoaderConfig) (l : List Nat) :
    (lineBytes cfg l).length ≤
      l.length + (if l.head? = some 62 then cfg.chromosomePaddingSize else 0) := by
  unfold lineBytes
  by_cases h62 : l.head? = some 62
  · simp [h62]
  · simp only [if_neg h62, List.length_map]
    have := truncLF_length_le l
    omega

theorem sum_ite_headers (p : Nat) (lines : List (List Nat)) :
    (lines.map (fun l => if l.head? = some 62 then p else 0)).sum =
      p * countHeaders lines := by
  induction lines with
  | nil => simp [countHeaders]
  | cons l rest ih =>
    simp only [List.map_cons, List.sum_cons, countHeaders, List.countP_cons] at *
    rw [ih]
    by_cases h62 : l.head? = some 62
    · simp only [if_pos h62, decide_eq_true_eq]
      ring
    · have : (decide (l.head? = some 62)) = false := by simp [h62]
      simp [if_neg h62, this]

/-- Claim C9: the allocation bound — file size plus one padding block per
counted contig plus one — is an upper bound on the bytes appended to the
genome sink, whether the load completes or aborts. -/
theorem c9_capacity (cfg : LoaderConfig) (lines : List (List Nat)) :
    loadTotal (ReadFASTAGenome cfg lines) ≤
      fileSize lines + (countHeaders lines + 1) * cfg.chromosomePaddingSize := by
  have hbody : (bodyBytes cfg lines).length ≤
      fileSize lines + cfg.chromosomePaddingSize * countHeaders lines := by
    rw [bodyBytes]
    rw [List.length_flatten, List.map_map]
    calc ((lines.map (fun l => (lineBytes cfg l).length))).sum
        ≤ (lines.map (fun l =>
            l.length + (if l.head? = some 62 then cfg.chromosomePaddingSize else 0))).sum := by
          apply List.sum_le_sum
          intro l _
          exact lineBytes_length_le cfg l
      _ = fileSize lines + cfg.chromosomePaddingSize * countHeaders lines := by
          rw [← sum_ite_headers cfg.chromosomePaddingSize lines]
          unfold fileSize
          induction lines with
          | nil => simp
          | cons l rest ih =>
            simp only [List.map_cons, List.sum_cons] at *
            omega
  have hrun := runLoader_bases_le cfg lines initState
  rw [Nat.add_mul, Nat.one_mul, Nat.mul_comm]
  unfold ReadFASTAGenome loadTotal
  cases hr : runLoader cfg initState lines with
  | error e =>
    rw [hr] at hrun
    simp only [initState, List.length_nil] at hrun
    simp only []
    omega
  | ok st =>
    rw [hr] at hrun
    simp only [initState, List.length_nil] at hrun
    simp only [Genome.sortContigsByName, Genome.fillInContigLengths, Genome.addData,
      List.length_append, List.length_replicate]
    omega

/-! ### Claim C6: the free-form contig name -/

theorem strchrIdx_cons_ne (b c : Nat) (rs : List Nat) (h : b ≠ c) :
    strchrIdx (b :: rs) c = (strchrIdx rs c).map (· + 1) := by
  simp [strchrIdx, h]

theorem updateMin_le (t : Nat) (o : Option Nat) : updateMin t o ≤ t := by
  cases o with
  | none => simp [updateMin]
  | some p => simp only [updateMin]; split <;> omega

theorem updateMin_shift (t : Nat) (o : Option Nat) :
    updateMin (t + 1) (o.map (· + 1)) = updateMin t o + 1 := by
  cases o with
  | none => simp [updateMin]
  | some p =>
    simp only [Option.map_some', updateMin]
    split_ifs <;> omega

theorem updateMin_pos (t : Nat) (o : Option Nat) (h : 1 ≤ t) :
    1 ≤ updateMin t (o.map (· + 1)) := by
  cases o with
  | none => simpa [updateMin] using h
  | some p =>
    simp only [Option.map_some', updateMin]
    split_ifs <;> omega

theorem updateMin_some_one_le (t : Nat) : updateMin t (some 1) ≤ 1 := by
  simp only [updateMin]; split <;> omega

theorem foldl_id (cs : List Nat) : ∀ t : Nat, cs.foldl (fun t _ => t) t = t := by
  induction cs with
  | nil => intro t; rfl
  | cons c cs ih => intro t; exact ih t

theorem foldl_shift (cs : List Nat) (f : Nat → Option Nat) :
    ∀ t, cs.foldl (fun t c => updateMin t ((f c).map (· + 1))) (t + 1) =
      cs.foldl (fun t c => updateMin t (f c)) t + 1 := by
  induction cs with
  | nil => intro t; rfl
  | cons c cs ih =>
    intro t
    simp only [List.foldl_cons]
    rw [updateMin_shift]
    exact ih _

theorem foldl_congr_mem (cs : List Nat) (F G : Nat → Nat → Nat)
    (h : ∀ c ∈ cs, ∀ t, F t c = G t c) : ∀ t, cs.foldl F t = cs.foldl G t := by
  induction cs with
  | nil => intro t; rfl
  | cons c cs ih =>
    intro t
    simp only [List.foldl_cons]
    rw [h c (by simp)]
    exact ih (fun c hc t => h c (by simp [hc]) t) _

theorem foldl_updateMin_le (cs : List Nat) (f : Nat → Option Nat) :
    ∀ t, cs.foldl (fun t c => updateMin t (f c)) t ≤ t := by
  induction cs with
  | nil => intro t; exact Nat.le_refl t
  | cons c cs ih =>
    intro t
    simp only [List.foldl_cons]
    exact Nat.le_trans (ih _) (updateMin_le t (f c))

theorem foldl_pos (cs : List Nat) (f : Nat → Option Nat) :
    ∀ t, 1 ≤ t →
      1 ≤ cs.foldl (fun t c => updateMin t ((f c).map (· + 1))) t := by
  induction cs with
  | nil => intro t ht; exact ht
  | cons c cs ih =>
    intro t ht
    simp only [List.foldl_cons]
    exact ih _ (updateMin_pos t (f c) ht)

theorem foldl_mem_le_one (cs : List Nat) (f : Nat → Option Nat) (b : Nat)
    (hb : b ∈ cs) (hfb : f b = some 1) :
    ∀ t, cs.foldl (fun t c => updateMin t (f c)) t ≤ 1 := by
  induction cs with
  | nil => cases hb
  | cons c cs ih =>
    intro t
    simp only [List.foldl_cons]
    rcases List.mem_cons.mp hb with rfl | hb2
    · exact Nat.le_trans (foldl_updateMin_le cs f _)
        (by rw [hfb]; exact updateMin_some_one_le t)
    · exact ih hb2 _

/-! ### Claim C6: the free-form naming mode -/

/-- Shifting the whole free-form scan past one non-terminator byte. -/
theorem freeFormNameLen_shift (pc : Option (List Nat)) (sp : Bool) (b : Nat)
    (rs : List Nat) (hterm : isFreeTerm pc sp b = false) :
    freeFormNameLen (62 :: b :: rs) pc sp = freeFormNameLen (62 :: rs) pc sp + 1 := by
  simp only [isFreeTerm, Bool.or_eq_false_iff, beq_eq_false_iff_ne] at hterm
  obtain ⟨⟨⟨hcs, hsp⟩, h10⟩, h13⟩ := hterm
  cases pc with
  | none =>
    cases sp with
    | false =>
      simp only [freeFormNameLen, List.length_cons, Bool.false_eq_true, if_false, if_true]
      rw [strchrIdx_cons_ne 62 10 (b :: rs) (by decide),
          strchrIdx_cons_ne 62 13 (b :: rs) (by decide),
          strchrIdx_cons_ne 62 10 rs (by decide),
          strchrIdx_cons_ne 62 13 rs (by decide),
          strchrIdx_cons_ne b 10 rs h10,
          strchrIdx_cons_ne b 13 rs h13,
          updateMin_shift, updateMin_shift]
    | true =>
      simp only [Bool.true_and, Bool.or_eq_false_iff, beq_eq_false_iff_ne] at hsp
      obtain ⟨h32, h9⟩ := hsp
      simp only [freeFormNameLen, List.length_cons, Bool.false_eq_true, if_false, if_true]
      rw [strchrIdx_cons_ne 62 32 (b :: rs) (by decide),
          strchrIdx_cons_ne 62 9 (b :: rs) (by decide),
          strchrIdx_cons_ne 62 10 (b :: rs) (by decide),
          strchrIdx_cons_ne 62 13 (b :: rs) (by decide),
          strchrIdx_cons_ne 62 32 rs (by decide),
          strchrIdx_cons_ne 62 9 rs (by decide),
          strchrIdx_cons_ne 62 10 rs (by decide),
          strchrIdx_cons_ne 62 13 rs (by decide),
          strchrIdx_cons_ne b 32 rs h32,
          strchrIdx_cons_ne b 9 rs h9,
          strchrIdx_cons_ne b 10 rs h10,
          strchrIdx_cons_ne b 13 rs h13,
          updateMin_shift, updateMin_shift, updateMin_shift, updateMin_shift]
  | some cs =>
    simp only at hcs
    have hmem : b ∉ cs := by simp at hcs; exact hcs
    have hfold : ∀ t : Nat,
        cs.foldl (fun t c => updateMin t ((strchrIdx (b :: rs) c).map (· + 1))) (t + 1) =
          cs.foldl (fun t c => updateMin t ((strchrIdx rs c).map (· + 1))) t + 1 := by
      intro t
      rw [foldl_congr_mem cs _
        (fun t c => updateMin t (((strchrIdx rs c).map (· + 1)).map (· + 1)))
        (fun c hc t => by
          rw [strchrIdx_cons_ne b c rs (fun he => hmem (he ▸ hc))])]
      exact foldl_shift cs (fun c => (strchrIdx rs c).map (· + 1)) t
    cases sp with
    | false =>
      simp only [freeFormNameLen, List.length_cons, Bool.false_eq_true, if_false, if_true,
        List.drop_succ_cons, List.drop_zero]
      rw [strchrIdx_cons_ne 62 10 (b :: rs) (by decide),
          strchrIdx_cons_ne 62 13 (b :: rs) (by decide),
          strchrIdx_cons_ne 62 10 rs (by decide),
          strchrIdx_cons_ne 62 13 rs (by decide),
          strchrIdx_cons_ne b 10 rs h10,
          strchrIdx_cons_ne b 13 rs h13,
          hfold (rs.length + 1),
          updateMin_shift, updateMin_shift]
    | true =>
      simp only [Bool.true_and, Bool.or_eq_false_iff, beq_eq_false_iff_ne] at hsp
      obtain ⟨h32, h9⟩ := hsp
      simp only [freeFormNameLen, List.length_cons, Bool.false_eq_true, if_false, if_true,
        List.drop_succ_cons, List.drop_zero]
      rw [strchrIdx_cons_ne 62 32 (b :: rs) (by decide),
          strchrIdx_cons_ne 62 9 (b :: rs) (by decide),
          strchrIdx_cons_ne 62 10 (b :: rs) (by decide),
          strchrIdx_cons_ne 62 13 (b :: rs) (by decide),
          strchrIdx_cons_ne 62 32 rs (by decide),
          strchrIdx_cons_ne 62 9 rs (by decide),
          strchrIdx_cons_ne 62 10 rs (by decide),
          strchrIdx_cons_ne 62 13 rs (by decide),
          strchrIdx_cons_ne b 32 rs h32,
          strchrIdx_cons_ne b 9 rs h9,
          strchrIdx_cons_ne b 10 rs h10,
          strchrIdx_cons_ne b 13 rs h13,
          hfold (rs.length + 1),
          updateMin_shift, updateMin_shift, updateMin_shift, updateMin_shift]


/-- The free-form scan never puts the terminator on the record marker. -/
theorem freeFormNameLen_pos (pc : Option (List Nat)) (sp : Bool) (rest : List Nat) :
    1 ≤ freeFormNameLen (62 :: rest) pc sp := by
  simp only [freeFormNameLen, List.length_cons, List.drop_succ_cons, List.drop_zero]
  rw [strchrIdx_cons_ne 62 10 rest (by decide), strchrIdx_cons_ne 62 13 rest (by decide)]
  apply updateMin_pos
  apply updateMin_pos
  have ht1 : 1 ≤ (match pc with
      | none => rest.length + 1
      | some cs =>
        cs.foldl (fun t c => updateMin t ((strchrIdx rest c).map (· + 1)))
          (rest.length + 1)) := by
    cases pc with
    | none => exact Nat.le_add_left 1 rest.length
    | some cs => exact foldl_pos cs _ _ (by omega)
  cases sp with
  | false => simpa only [Bool.false_eq_true, if_false] using ht1
  | true =>
    simp only [if_true]
    rw [strchrIdx_cons_ne 62 32 rest (by decide), strchrIdx_cons_ne 62 9 rest (by decide)]
    exact updateMin_pos _ _ (updateMin_pos _ _ ht1)

/-- A terminator byte right after the record marker pins the scan at 1. -/
theorem freeFormNameLen_term_le_one (pc : Option (List Nat)) (sp : Bool) (b : Nat)
    (rs : List Nat) (hterm : isFreeTerm pc sp b = true) :
    freeFormNameLen (62 :: b :: rs) pc sp ≤ 1 := by
  simp only [freeFormNameLen, List.length_cons, List.drop_succ_cons, List.drop_zero]
  by_cases hb13 : b = 13
  · subst hb13
    rw [strchrIdx_cons_ne 62 13 (13 :: rs) (by decide)]
    have h0 : strchrIdx (13 :: rs) 13 = some 0 := by simp [strchrIdx]
    simp only [h0, Option.map_some', Nat.zero_add]
    exact updateMin_some_one_le _
  by_cases hb10 : b = 10
  · subst hb10
    rw [strchrIdx_cons_ne 62 10 (10 :: rs) (by decide)]
    have h0 : strchrIdx (10 :: rs) 10 = some 0 := by simp [strchrIdx]
    simp only [h0, Option.map_some', Nat.zero_add]
    exact Nat.le_trans (updateMin_le _ _) (updateMin_some_one_le _)
  simp only [isFreeTerm, hb10, hb13, Bool.or_eq_true, beq_iff_eq, or_false,
    Bool.and_eq_true] at hterm
  rcases hterm with hcs | ⟨hsp, h329⟩
  · cases pc with
    | none => simp at hcs
    | some cs =>
      simp only at hcs
      have hmem : b ∈ cs := by simpa using hcs
      have hfold :
          cs.foldl (fun t c => updateMin t ((strchrIdx (b :: rs) c).map (· + 1)))
            (rs.length + 1 + 1) ≤ 1 := by
        apply foldl_mem_le_one cs _ b hmem
        have h0 : strchrIdx (b :: rs) b = some 0 := by simp [strchrIdx]
        simp [h0]
      refine Nat.le_trans (updateMin_le _ _) (Nat.le_trans (updateMin_le _ _) ?_)
      cases sp with
      | false => simpa only [Bool.false_eq_true, if_false] using hfold
      | true =>
        simp only [if_true]
        exact Nat.le_trans (updateMin_le _ _) (Nat.le_trans (updateMin_le _ _) hfold)
  · subst hsp
    simp only [if_true]
    rcases h329 with rfl | rfl
    · rw [strchrIdx_cons_ne 62 32 (32 :: rs) (by decide)]
      have h0 : strchrIdx (32 :: rs) 32 = some 0 := by simp [strchrIdx]
      simp only [h0, Option.map_some', Nat.zero_add]
      refine Nat.le_trans (updateMin_le _ _) (Nat.le_trans (updateMin_le _ _) ?_)
      exact Nat.le_trans (updateMin_le _ _) (updateMin_some_one_le _)
    · rw [strchrIdx_cons_ne 62 9 (9 :: rs) (by decide)]
      have h0 : strchrIdx (9 :: rs) 9 = some 0 := by simp [strchrIdx]
      simp only [h0, Option.map_some', Nat.zero_add]
      refine Nat.le_trans (updateMin_le _ _) (Nat.le_trans (updateMin_le _ _) ?_)
      exact updateMin_some_one_le _


/-- The free-form terminator scan measures the terminator-free head of the
header text. -/
theorem freeFormNameLen_eq (pc : Option (List Nat)) (sp : Bool) :
    ∀ rest, freeFormNameLen (62 :: rest) pc sp =
      (rest.takeWhile (fun b => !isFreeTerm pc sp b)).length + 1 := by
  intro rest
  induction rest with
  | nil =>
    simp only [List.takeWhile_nil, List.length_nil]
    simp only [freeFormNameLen, List.length_cons, List.length_nil,
      List.drop_succ_cons, List.drop_zero]
    have hfold : ∀ t : Nat,
        (match pc with
         | none => t
         | some cs =>
           cs.foldl (fun t c => updateMin t ((strchrIdx ([] : List Nat) c).map (· + 1))) t) = t := by
      intro t
      cases pc with
      | none => rfl
      | some cs =>
        show cs.foldl _ t = t
        rw [foldl_congr_mem cs _ (fun t c => t)
          (fun c hc t => by simp [strchrIdx, updateMin])]
        exact foldl_id cs t
    cases sp with
    | false =>
      simp only [Bool.false_eq_true, if_false]
      rw [hfold]
      simp [strchrIdx, updateMin]
    | true =>
      simp only [if_true]
      rw [hfold]
      simp [strchrIdx, updateMin]
  | cons b rs ih =>
    by_cases hterm : isFreeTerm pc sp b = true
    · have hle := freeFormNameLen_term_le_one pc sp b rs hterm
      have hpos := freeFormNameLen_pos pc sp (b :: rs)
      rw [Nat.le_antisymm hle hpos, List.takeWhile_cons]
      simp [hterm]
    · have hterm2 : isFreeTerm pc sp b = false := by
        cases h : isFreeTerm pc sp b
        · rfl
        · exact absurd h hterm
      rw [freeFormNameLen_shift pc sp b rs hterm2, ih, List.takeWhile_cons]
      simp [hterm2]

theorem take_takeWhile_length (p : Nat → Bool) (l : List Nat) :
    l.take (l.takeWhile p).length = l.takeWhile p := by
  induction l with
  | nil => rfl
  | cons a l ih =>
    rw [List.takeWhile_cons]
    by_cases h : p a
    · simp [h, List.take_succ_cons, ih]
    · simp [h]

/-- The free-form name is the terminator-free head of the header text. -/
theorem freeFormName_takeWhile (pieceChars : Option (List Nat)) (spaceTerm : Bool)
    (rest : List Nat) :
    freeFormName (62 :: rest) pieceChars spaceTerm =
      rest.takeWhile (fun b => !isFreeTerm pieceChars spaceTerm b) := by
  rw [freeFormName, freeFormNameLen_eq]
  simp only [List.drop_succ_cons, List.drop_zero, Nat.add_sub_cancel]
  exact take_takeWhile_length _ rest

/-- Claim C6: with no tag configured, the raw contig name is the header text
after the record marker truncated at whichever comes first among any
configured terminator character, space or tab when
`spaceIsAPieceNameTerminator` is set, and a line-terminator byte; when none
occurs the rest of the line is the name. -/
theorem c6_free_form_name (cfg : LoaderConfig) (rest : List Nat)
    (htag : cfg.chrTag = none) :
    resolveContigName cfg (62 :: rest) =
      .ok (rest.takeWhile (fun b =>
        !isFreeTerm cfg.pieceNameTerminatorCharacters
          cfg.spaceIsAPieceNameTerminator b)) := by
  simp [resolveContigName, htag, freeFormName_takeWhile]

/-- Witness for claim C6: the header `">chr1|x y"` with terminator set
`"|"` and spaces terminating names resolves to `"chr1"`. -/
theorem c6_witness :
    resolveContigName ⟨some [124], true, 1, none, none⟩
        [62, 99, 104, 114, 49, 124, 120, 32, 121, 10] = .ok [99, 104, 114, 49] := by
  have h := c6_free_form_name ⟨some [124], true, 1, none, none⟩
    [99, 104, 114, 49, 124, 120, 32, 121, 10] rfl
  rw [h]
  decide


/-! ### Claim C4: the tag search -/

theorem strstrAux_some (ln tag : List Nat) :
    ∀ fuel i j, strstrAux ln tag fuel i = some j →
      i ≤ j ∧ j ≤ ln.length ∧ occursAt ln tag j ∧
      ∀ k, i ≤ k → k < j → ¬occursAt ln tag k := by
  intro fuel
  induction fuel with
  | zero => intro i j h; cases h
  | succ fuel ih =>
    intro i j h
    simp only [strstrAux] at h
    by_cases hi : i ≤ ln.length
    · rw [if_pos hi] at h
      by_cases hocc : (ln.drop i).take tag.length = tag
      · rw [if_pos hocc] at h
        cases h
        exact ⟨Nat.le_refl i, hi, hocc, fun k hk1 hk2 => absurd hk1 (by omega)⟩
      · rw [if_neg hocc] at h
        obtain ⟨h1, h2, h3, h4⟩ := ih (i + 1) j h
        refine ⟨by omega, h2, h3, ?_⟩
        intro k hk1 hk2
        rcases Nat.eq_or_lt_of_le hk1 with rfl | hlt
        · exact hocc
        · exact h4 k (by omega) hk2
    · rw [if_neg hi] at h; cases h

theorem strstrAux_none (ln tag : List Nat) :
    ∀ fuel i, ln.length + 1 - i ≤ fuel → strstrAux ln tag fuel i = none →
      ∀ k, i ≤ k → k ≤ ln.length → ¬occursAt ln tag k := by
  intro fuel
  induction fuel with
  | zero => intro i hf _ k hk1 hk2 _; omega
  | succ fuel ih =>
    intro i hf h k hk1 hk2
    simp only [strstrAux] at h
    by_cases hi : i ≤ ln.length
    · rw [if_pos hi] at h
      by_cases hocc : (ln.drop i).take tag.length = tag
      · rw [if_pos hocc] at h; cases h
      · rw [if_neg hocc] at h
        rcases Nat.eq_or_lt_of_le hk1 with rfl | hlt
        · exact hocc
        · exact ih (i + 1) (by omega) h k (by omega) hk2
    · intro _; omega

theorem strstrFrom_some (ln tag : List Nat) (i j : Nat)
    (h : strstrFrom ln tag i = some j) :
    i ≤ j ∧ j ≤ ln.length ∧ occursAt ln tag j ∧
    ∀ k, i ≤ k → k < j → ¬occursAt ln tag k :=
  strstrAux_some ln tag (ln.length + 1 - i) i j h

theorem strstrFrom_none (ln tag : List Nat) (i : Nat)
    (h : strstrFrom ln tag i = none) :
    ∀ k, i ≤ k → k ≤ ln.length → ¬occursAt ln tag k :=
  strstrAux_none ln tag (ln.length + 1 - i) i (Nat.le_refl _) h

theorem findAcceptedTag_some (ln tag : List Nat) :
    ∀ fuel i j, 1 ≤ i → findAcceptedTag ln tag fuel i = some j →
      i ≤ j ∧ j ≤ ln.length ∧ occursAt ln tag j ∧ delimOk ln tag j ∧
      ∀ k, i ≤ k → k < j → ¬(occursAt ln tag k ∧ delimOk ln tag k) := by
  intro fuel
  induction fuel with
  | zero => intro i j _ h; cases h
  | succ fuel ih =>
    intro i j hi h
    simp only [findAcceptedTag] at h
    cases hss : strstrFrom ln tag i with
    | none => rw [hss] at h; cases h
    | some j0 =>
      simp only [hss] at h
      obtain ⟨hij0, hj0len, hocc0, hmin0⟩ := strstrFrom_some ln tag i j0 hss
      by_cases hd : ln[j0 - 1]? = some 62 ∨ ln[j0 - 1]? = some 124 ∨
          ln[j0 + tag.length]? = some 124
      · rw [if_pos hd] at h
        cases h
        exact ⟨hij0, hj0len, hocc0, hd,
          fun k hk1 hk2 hkb => hmin0 k hk1 hk2 hkb.1⟩
      · rw [if_neg hd] at h
        obtain ⟨h1, h2, h3, h4, h5⟩ := ih (j0 + 1) j (by omega) h
        refine ⟨by omega, h2, h3, h4, ?_⟩
        intro k hk1 hk2 hkb
        by_cases hkj0 : k < j0
        · exact hmin0 k hk1 hkj0 hkb.1
        · by_cases hkeq : k = j0
          · subst hkeq; exact hd hkb.2
          · exact h5 k (by omega) hk2 hkb

theorem findAcceptedTag_none (ln tag : List Nat) :
    ∀ fuel i, 1 ≤ i → ln.length + 1 - i ≤ fuel →
      findAcceptedTag ln tag fuel i = none →
      ∀ k, i ≤ k → k ≤ ln.length → ¬(occursAt ln tag k ∧ delimOk ln tag k) := by
  intro fuel
  induction fuel with
  | zero => intro i hi hf _ k hk1 hk2 _; omega
  | succ fuel ih =>
    intro i hi hf h k hk1 hk2 hkb
    simp only [findAcceptedTag] at h
    cases hss : strstrFrom ln tag i with
    | none => exact strstrFrom_none ln tag i hss k hk1 hk2 hkb.1
    | some j0 =>
      simp only [hss] at h
      obtain ⟨hij0, hj0len, hocc0, hmin0⟩ := strstrFrom_some ln tag i j0 hss
      by_cases hd : ln[j0 - 1]? = some 62 ∨ ln[j0 - 1]? = some 124 ∨
          ln[j0 + tag.length]? = some 124
      · rw [if_pos hd] at h; cases h
      · rw [if_neg hd] at h
        by_cases hkj0 : k < j0
        · exact hmin0 k hk1 hkj0 hkb.1
        · by_cases hkeq : k = j0
          · subst hkeq; exact hd hkb.2
          · exact ih (j0 + 1) (by omega) (by omega) h k (by omega) hk2 hkb

theorem strchrIdx_some_spec (c : Nat) :
    ∀ (l : List Nat) (k : Nat), strchrIdx l c = some k →
      l[k]? = some c ∧ ∀ m, m < k → l[m]? ≠ some c := by
  intro l
  induction l with
  | nil => intro k h; cases h
  | cons b rest ih =>
    intro k h
    simp only [strchrIdx] at h
    by_cases hb : b = c
    · rw [if_pos hb] at h
      cases h
      subst hb
      exact ⟨by simp, fun m hm => absurd hm (by omega)⟩
    · rw [if_neg hb] at h
      cases hr : strchrIdx rest c with
      | none => rw [hr] at h; cases h
      | some k0 =>
        rw [hr] at h
        simp only [Option.map_some', Option.some.injEq] at h
        subst h
        obtain ⟨h1, h2⟩ := ih k0 hr
        refine ⟨by simpa using h1, ?_⟩
        intro m hm
        cases m with
        | zero => simpa using hb
        | succ m0 =>
          simp only [List.getElem?_cons_succ]
          exact h2 m0 (by omega)

theorem strchrIdx_none_spec (c : Nat) :
    ∀ (l : List Nat), strchrIdx l c = none → ∀ m : Nat, l[m]? ≠ some c := by
  intro l
  induction l with
  | nil =>
    intro _ m
    simp
  | cons b rest ih =>
    intro h m
    simp only [strchrIdx] at h
    by_cases hb : b = c
    · rw [if_pos hb] at h; cases h
    · rw [if_neg hb] at h
      cases hr : strchrIdx rest c with
      | some k0 => rw [hr] at h; cases h
      | none =>
        cases m with
        | zero => simpa using hb
        | succ m0 => simpa using ih hr m0


/-- Amended claim C4: the search succeeds exactly when some occurrence of the
tag at an index `j ≥ 1` satisfies the disjunctive delimiter test (preceded by
`>` or `|`, or followed by `|`); the leftmost such occurrence is used, the
value is the text starting one character past the occurrence up to the next
pipe, and a missing closing pipe is the fatal malformed-tag error. -/
theorem c4_tag_search (ln tag : List Nat) :
    (FindFASTATagValue ln tag = .notFound ↔
      ¬∃ j, 1 ≤ j ∧ j ≤ ln.length ∧ occursAt ln tag j ∧ delimOk ln tag j) ∧
    (∀ v, FindFASTATagValue ln tag = .found v →
      ∃ j, firstAccepted ln tag j ∧
        ∃ k, firstPipeFrom ln (j + tag.length + 1) k ∧
          v = (ln.drop (j + tag.length + 1)).take (k - (j + tag.length + 1))) ∧
    (FindFASTATagValue ln tag = .malformed →
      ∃ j, firstAccepted ln tag j ∧
        ∀ m : Nat, j + tag.length + 1 ≤ m → ln[m]? ≠ some 124) := by
  unfold FindFASTATagValue
  cases hfa : findAcceptedTag ln tag (ln.length + 2) 1 with
  | none =>
    have hno := findAcceptedTag_none ln tag (ln.length + 2) 1 (by omega) (by omega) hfa
    refine ⟨?_, ?_, ?_⟩
    · constructor
      · rintro _ ⟨j, hj1, hjlen, hocc, hdel⟩
        exact hno j hj1 hjlen ⟨hocc, hdel⟩
      · intro _; rfl
    · intro v hv
      exact absurd hv (by simp)
    · intro hm
      exact absurd hm (by simp)
  | some j =>
    obtain ⟨hj1, hjlen, hocc, hdel, hmin⟩ :=
      findAcceptedTag_some ln tag (ln.length + 2) 1 j (by omega) hfa
    have hfj : firstAccepted ln tag j :=
      ⟨hj1, hjlen, hocc, hdel, fun k hk1 hk2 => hmin k hk1 hk2⟩
    cases hcp : strchrIdx (ln.drop (j + tag.length + 1)) 124 with
    | none =>
      have habs := strchrIdx_none_spec 124 _ hcp
      simp only [hcp, Option.map_none']
      refine ⟨?_, ?_, ?_⟩
      · exact iff_of_false (by simp) (fun hne => hne ⟨j, hj1, hjlen, hocc, hdel⟩)
      · intro v hv
        exact absurd hv (by simp)
      · intro _
        refine ⟨j, hfj, ?_⟩
        intro m hm hcontra
        have heq : j + tag.length + 1 + (m - (j + tag.length + 1)) = m := by omega
        exact habs (m - (j + tag.length + 1))
          (by rw [List.getElem?_drop, heq]; exact hcontra)
    | some k0 =>
      obtain ⟨hk1, hk2⟩ := strchrIdx_some_spec 124 _ k0 hcp
      simp only [hcp, Option.map_some']
      refine ⟨?_, ?_, ?_⟩
      · exact iff_of_false (by simp) (fun hne => hne ⟨j, hj1, hjlen, hocc, hdel⟩)
      · intro v hv
        simp only [TagResult.found.injEq] at hv
        refine ⟨j, hfj, k0 + (j + tag.length + 1), ⟨by omega, ?_, ?_⟩, ?_⟩
        · rw [List.getElem?_drop] at hk1
          rw [Nat.add_comm k0 (j + tag.length + 1)] at *
          exact hk1
        · intro m hm1 hm2 hcontra
          have heq : j + tag.length + 1 + (m - (j + tag.length + 1)) = m := by omega
          exact hk2 (m - (j + tag.length + 1)) (by omega)
            (by rw [List.getElem?_drop, heq]; exact hcontra)
        · have hsub : k0 + (j + tag.length + 1) - (j + tag.length + 1) = k0 := by omega
          rw [hsub] at hv ⊢
          exact hv.symm
      · intro hm
        exact absurd hm (by simp)


/-- Claim C4 is false as stated: in the header `">xref|val|"` the only
occurrence of tag `"ref"` is preceded by `x` (not `>` or `|`), yet because it
is followed by `|` the disjunctive loop condition accepts it and the search
reports found with value `"val"`; under the claim's conjunctive condition no
acceptable occurrence exists. -/
theorem c4_cex :
    FindFASTATagValue [62, 120, 114, 101, 102, 124, 118, 97, 108, 124]
        [114, 101, 102] = .found [118, 97, 108] ∧
    claimTagFound [62, 120, 114, 101, 102, 124, 118, 97, 108, 124]
        [114, 101, 102] = false := by
  constructor
  · decide
  · decide

/-- Witness for the amended claim C4 at the header `">gi|123|ref|XYZ.1|"`
with tag `"ref"`: the value is `"XYZ.1"`. -/
theorem c4_witness :
    FindFASTATagValue [62, 103, 105, 124, 49, 50, 51, 124, 114, 101, 102, 124,
        88, 89, 90, 46, 49, 124] [114, 101, 102] = .found [88, 89, 90, 46, 49] ∧
    ∃ j, firstAccepted [62, 103, 105, 124, 49, 50, 51, 124, 114, 101, 102, 124,
        88, 89, 90, 46, 49, 124] [114, 101, 102] j ∧
      ∃ k, firstPipeFrom [62, 103, 105, 124, 49, 50, 51, 124, 114, 101, 102, 124,
          88, 89, 90, 46, 49, 124]
          (j + ([114, 101, 102] : List Nat).length + 1) k ∧
        [88, 89, 90, 46, 49] =
          (([62, 103, 105, 124, 49, 50, 51, 124, 114, 101, 102, 124,
            88, 89, 90, 46, 49, 124] : List Nat).drop
              (j + ([114, 101, 102] : List Nat).length + 1)).take
            (k - (j + ([114, 101, 102] : List Nat).length + 1)) :=
  ⟨by decide,
   (c4_tag_search [62, 103, 105, 124, 49, 50, 51, 124, 114, 101, 102, 124,
      88, 89, 90, 46, 49, 124] [114, 101, 102]).2.1
     [88, 89, 90, 46, 49] (by decide)⟩

/-! ### Claim C2: the round trip -/

theorem layoutBases_snoc (p : Nat) (recs : List (List Nat × List Nat))
    (nm s : List Nat) :
    layoutBases p (recs ++ [(nm, s)]) =
      layoutBases p recs ++ (List.replicate p 110 ++ s) := by
  induction recs with
  | nil => simp [layoutBases]
  | cons r rest ih => simp [layoutBases, ih]

theorem layoutBases_appendToLast (p : Nat) (x : List Nat) :
    ∀ recs : List (List Nat × List Nat), recs ≠ [] →
      layoutBases p (appendToLast x recs) = layoutBases p recs ++ x := by
  intro recs
  induction recs with
  | nil => intro h; exact absurd rfl h
  | cons r rest ih =>
    intro _
    cases rest with
    | nil => simp [appendToLast, layoutBases]
    | cons r2 rest2 =>
      have := ih (by simp)
      simp only [appendToLast, layoutBases]
      rw [this]
      simp [layoutBases]

theorem layoutContigs_snoc (p : Nat) (nm s : List Nat) :
    ∀ (recs : List (List Nat × List Nat)) (pos : Nat),
      layoutContigs p pos (recs ++ [(nm, s)]) =
        layoutContigs p pos recs ++
          [⟨nm, pos + (layoutBases p recs).length + p⟩] := by
  intro recs
  induction recs with
  | nil => intro pos; simp [layoutContigs, layoutBases]
  | cons r rest ih =>
    intro pos
    simp only [List.cons_append, layoutContigs, List.append_eq]
    rw [ih (pos + p + r.2.length)]
    have harith : pos + p + r.2.length + (layoutBases p rest).length + p =
        pos + (layoutBases p (r :: rest)).length + p := by
      simp only [layoutBases, List.length_append, List.length_replicate]
      omega
    rw [harith]

theorem layoutContigs_appendToLast (p : Nat) (x : List Nat) :
    ∀ (recs : List (List Nat × List Nat)) (pos : Nat), recs ≠ [] →
      layoutContigs p pos (appendToLast x recs) = layoutContigs p pos recs := by
  intro recs
  induction recs with
  | nil => intro pos h; exact absurd rfl h
  | cons r rest ih =>
    intro pos _
    cases rest with
    | nil => simp [appendToLast, layoutContigs]
    | cons r2 rest2 =>
      have ha : appendToLast x (r :: r2 :: rest2) = r :: appendToLast x (r2 :: rest2) := rfl
      rw [ha]
      exact congrArg (List.cons ⟨r.1, pos + p⟩) (ih (pos + p + r.2.length) (by simp))

theorem appendToLast_isEmpty (x : List Nat) :
    ∀ recs : List (List Nat × List Nat),
      (appendToLast x recs).isEmpty = recs.isEmpty := by
  intro recs
  cases recs with
  | nil => rfl
  | cons r rest =>
    cases rest with
    | nil => rfl
    | cons r2 rest2 => rfl


theorem nameLtB_asymm : ∀ a b : List Nat, nameLtB a b = true → nameLtB b a = false := by
  intro a
  induction a with
  | nil =>
    intro b h
    cases b with
    | nil => simp [nameLtB] at h
    | cons y ys => simp [nameLtB]
  | cons x xs ih =>
    intro b h
    cases b with
    | nil => simp [nameLtB] at h
    | cons y ys =>
      simp only [nameLtB] at h ⊢
      by_cases hxy : x < y
      · rw [if_pos hxy] at h
        rw [if_neg (by omega), if_pos hxy]
      · rw [if_neg hxy] at h
        by_cases hyx : y < x
        · rw [if_pos hyx] at h; cases h
        · rw [if_neg hyx] at h
          rw [if_neg hyx, if_neg hxy]
          exact ih ys h

theorem layoutContigs_mem_name (p : Nat) :
    ∀ (recs : List (List Nat × List Nat)) (pos : Nat) (c : Contig),
      c ∈ layoutContigs p pos recs → ∃ r ∈ recs, c.name = r.1 := by
  intro recs
  induction recs with
  | nil => intro pos c h; cases h
  | cons r rest ih =>
    intro pos c h
    rcases List.mem_cons.mp h with rfl | h2
    · exact ⟨r, by simp, rfl⟩
    · obtain ⟨r2, hr2, hname⟩ := ih _ c h2
      exact ⟨r2, by simp [hr2], hname⟩

theorem layoutContigs_sorted (p : Nat)
    (recs : List (List Nat × List Nat))
    (hp : recs.Pairwise (fun r1 r2 => nameLtB r1.1 r2.1 = true)) :
    ∀ pos, List.Sorted contigLe (layoutContigs p pos recs) := by
  induction recs with
  | nil => intro pos; simp [layoutContigs, List.Sorted]
  | cons r rest ih =>
    intro pos
    rw [List.pairwise_cons] at hp
    have hrest := ih hp.2 (pos + p + r.2.length)
    refine List.Pairwise.cons ?_ hrest
    intro c hc
    obtain ⟨r2, hr2, hname⟩ := layoutContigs_mem_name p rest _ c hc
    have hlt := hp.1 r2 hr2
    show nameLtB c.name r.1 = false
    rw [hname]
    exact nameLtB_asymm _ _ hlt


/-- The parse loop builds exactly the layout of the reference records. -/
theorem runLoader_records (cfg : LoaderConfig) :
    ∀ (lines : List (List Nat)) (acc : List (List Nat × List Nat))
      (st : LoaderState) (recs : List (List Nat × List Nat)),
      inputRecordsAux cfg acc lines = .ok recs →
      st.genome.bases = layoutBases cfg.chromosomePaddingSize acc →
      st.genome.contigs = layoutContigs cfg.chromosomePaddingSize 0 acc →
      st.inAContig = !acc.isEmpty →
      ∃ st2, runLoader cfg st lines = .ok st2 ∧
        st2.genome.bases = layoutBases cfg.chromosomePaddingSize recs ∧
        st2.genome.contigs = layoutContigs cfg.chromosomePaddingSize 0 recs ∧
        st2.inAContig = !recs.isEmpty := by
  intro lines
  induction lines with
  | nil =>
    intro acc st recs hin hb hc ha
    simp only [inputRecordsAux] at hin
    cases hin
    exact ⟨st, rfl, hb, hc, ha⟩
  | cons l rest ih =>
    intro acc st recs hin hb hc ha
    simp only [inputRecordsAux] at hin
    by_cases h62 : l.head? = some 62
    · rw [if_pos h62] at hin
      cases hr : resolveContigName cfg l with
      | error e => rw [hr] at hin; cases hin
      | ok nm =>
        rw [hr] at hin
        simp only [] at hin
        obtain ⟨st2, hrun, hb2, hc2, ha2⟩ :=
          ih (acc ++ [(nm, [])])
            ⟨⟨st.genome.bases ++ List.replicate cfg.chromosomePaddingSize 110,
              st.genome.contigs ++
                [⟨nm, (st.genome.bases ++
                  List.replicate cfg.chromosomePaddingSize 110).length⟩]⟩,
              true, st.warningIssued, st.warningsEmitted⟩
            recs hin
            (by
              simp only [hb, layoutBases_snoc]
              simp)
            (by
              simp only [hc, hb, layoutContigs_snoc, List.length_append,
                List.length_replicate]
              simp)
            (by simp)
        refine ⟨st2, ?_, hb2, hc2, ha2⟩
        simp only [runLoader, processLine, if_pos h62, hr]
        simp only [Genome.addData, Genome.startContig]
        exact hrun
    · rw [if_neg h62] at hin
      by_cases hemp : acc.isEmpty
      · rw [if_pos hemp] at hin; cases hin
      · rw [if_neg hemp] at hin
        have hanil : acc ≠ [] := by
          cases acc
          · simp at hemp
          · simp
        have hin' : st.inAContig = true := by
          rw [ha]
          cases acc
          · simp at hemp
          · simp
        obtain ⟨st2, hrun, hb2, hc2, ha2⟩ :=
          ih (appendToLast (normalizeLineData (truncLF l)) acc)
            ⟨⟨st.genome.bases ++
                (normalizePass2 ((truncLF l).map toupperB) st.warningIssued).1,
              st.genome.contigs⟩,
              true,
              (normalizePass2 ((truncLF l).map toupperB) st.warningIssued).2.1,
              st.warningsEmitted +
                (normalizePass2 ((truncLF l).map toupperB) st.warningIssued).2.2⟩
            recs hin
            (by
              simp only [hb, layoutBases_appendToLast _ _ acc hanil]
              rw [normalizePass2_data_map, ← normalizeLineData_eq_map])
            (by
              simp only [hc, layoutContigs_appendToLast _ _ acc _ hanil])
            (by
              simp only [appendToLast_isEmpty]
              cases acc
              · simp at hemp
              · simp)
        refine ⟨st2, ?_, hb2, hc2, ha2⟩
        simp only [runLoader, processLine, if_neg h62, hin']
        rw [if_pos trivial]
        simp only [Genome.addData]
        exact hrun


/-- The writer recovers, for each contig of the layout, the sequence followed
by one padding block. -/
theorem writerRecords_layout (p : Nat) :
    ∀ (recs : List (List Nat × List Nat)) (pos : Nat) (pre : List Nat),
      pre.length = pos →
      writerRecordsAux (pre ++ layoutBases p recs ++ List.replicate p 110)
          (layoutContigs p pos recs) =
        recs.map (fun r => (r.1, r.2 ++ List.replicate p 110)) := by
  intro recs
  induction recs with
  | nil =>
    intro pos pre hpre
    simp [layoutContigs, writerRecordsAux]
  | cons r rest ih =>
    intro pos pre hpre
    cases rest with
    | nil =>
      have hbases : pre ++ layoutBases p [r] ++ List.replicate p 110 =
          (pre ++ List.replicate p 110) ++ (r.2 ++ List.replicate p 110) := by
        simp [layoutBases]
      rw [hbases]
      simp only [layoutContigs, writerRecordsAux, List.map_cons, List.map_nil]
      rw [List.drop_left' (by simp [hpre])]
      have hlen : ((pre ++ List.replicate p 110) ++
          (r.2 ++ List.replicate p 110)).length - (pos + p) =
          r.2.length + p := by
        simp only [List.length_append, List.length_replicate, hpre]
        omega
      rw [hlen]
      rw [List.take_of_length_le (by simp)]
    | cons r2 rest2 =>
      have hbases : pre ++ layoutBases p (r :: r2 :: rest2) ++ List.replicate p 110 =
          (pre ++ List.replicate p 110) ++
            (r.2 ++ (layoutBases p (r2 :: rest2) ++ List.replicate p 110)) := by
        simp [layoutBases]
      rw [hbases]
      simp only [layoutContigs, writerRecordsAux, List.map_cons, List.cons.injEq,
        Prod.mk.injEq]
      refine ⟨⟨trivial, ?_⟩, ?_⟩
      · rw [List.drop_left' (by simp [hpre])]
        have he : pos + p + r.2.length + p - (pos + p) = r.2.length + p := by omega
        rw [he]
        rw [List.take_append]
        congr 1
        have hl : layoutBases p (r2 :: rest2) ++ List.replicate p 110 =
            List.replicate p 110 ++
              (r2.2 ++ (layoutBases p rest2 ++ List.replicate p 110)) := by
          simp [layoutBases]
        rw [hl, List.take_left' (by simp)]
      · have hih := ih (pos + p + r.2.length) ((pre ++ List.replicate p 110) ++ r.2)
          (by simp only [List.length_append, List.length_replicate, hpre]; try omega)
        have hb2 : ((pre ++ List.replicate p 110) ++ r.2) ++
            layoutBases p (r2 :: rest2) ++ List.replicate p 110 =
            (pre ++ List.replicate p 110) ++
              (r.2 ++ (layoutBases p (r2 :: rest2) ++ List.replicate p 110)) := by
          simp
        rw [hb2] at hih
        simp only [layoutContigs, writerRecordsAux, List.map_cons, List.cons.injEq,
          Prod.mk.injEq] at hih
        exact hih


/-- Amended claim C2: serializing a loaded genome yields the contigs in input
order with the same resolved names, and each written sequence equals the
normalized input sequence (independent of the original line wrapping, which
the record view abstracts away) followed by exactly one padding block of
`chromosomePaddingSize` letters `n` — provided the contig names appear in
strictly increasing order in the input, so that the name sort leaves the
table in file order. -/
theorem c2_round_trip (cfg : LoaderConfig) (lines : List (List Nat))
    (recs : List (List Nat × List Nat))
    (hrecs : inputRecords cfg lines = .ok recs)
    (hsorted : recs.Pairwise (fun r1 r2 => nameLtB r1.1 r2.1 = true)) :
    ∃ g, ReadFASTAGenome cfg lines = .ok g ∧
      writerRecords g = recs.map (fun r =>
        (r.1, r.2 ++ List.replicate cfg.chromosomePaddingSize 110)) := by
  obtain ⟨st2, hrun, hb2, hc2, ha2⟩ :=
    runLoader_records cfg lines [] initState recs hrecs rfl rfl rfl
  have hread : ReadFASTAGenome cfg lines =
      .ok (((st2.genome.addData
            (List.replicate cfg.chromosomePaddingSize 110)).fillInContigLengths).sortContigsByName) := by
    unfold ReadFASTAGenome
    rw [hrun]
  refine ⟨_, hread, ?_⟩
  have hsort : List.insertionSort contigLe st2.genome.contigs = st2.genome.contigs := by
    apply List.Sorted.insertionSort_eq
    rw [hc2]
    exact layoutContigs_sorted cfg.chromosomePaddingSize recs hsorted 0
  simp only [writerRecords, Genome.sortContigsByName, Genome.fillInContigLengths,
    Genome.addData]
  rw [hsort, hb2, hc2]
  have hw := writerRecords_layout cfg.chromosomePaddingSize recs 0 [] rfl
  simpa using hw

/-- Claim C2 is false as stated: loading `">a"`, `"A"` with padding 1 and
serializing writes for contig `a` the sequence `"An"` — the normalized input
sequence plus the padding block that precedes the next contig (here the final
padding) — not the input sequence `"A"`. -/
theorem c2_cex :
    ReadFASTAGenome ⟨none, false, 1, none, none⟩ [[62, 97, 10], [65, 10]] =
      .ok ⟨[110, 65, 110], [⟨[97], 1⟩]⟩ ∧
    inputRecords ⟨none, false, 1, none, none⟩ [[62, 97, 10], [65, 10]] =
      .ok [([97], [65])] ∧
    writerRecords ⟨[110, 65, 110], [⟨[97], 1⟩]⟩ = [([97], [65, 110])] ∧
    ([65, 110] : List Nat) ≠ [65] := by
  refine ⟨by decide, by decide, by decide, by decide⟩

/-- Witness for the amended claim C2 at the sorted two-contig file
`">a"`, `"A"`, `">b"`, `"CC"` with padding 1. -/
theorem c2_witness :
    ∃ g, ReadFASTAGenome ⟨none, false, 1, none, none⟩
        [[62, 97, 10], [65, 10], [62, 98, 10], [67, 67, 10]] = .ok g ∧
      writerRecords g =
        [([97], [65]), ([98], [67, 67])].map (fun r =>
          (r.1, r.2 ++ List.replicate 1 110)) :=
  c2_round_trip ⟨none, false, 1, none, none⟩
    [[62, 97, 10], [65, 10], [62, 98, 10], [67, 67, 10]]
    [([97], [65]), ([98], [67, 67])] (by decide) (by decide)


end Fasta
